import Mathlib

/-
Verification of the build/deployment macro crate (crates/macros/src/lib.rs).

The deployment code walks real directory trees, so we shallowly embed the
filesystem as a tree of named entries.  An `Entry` carries fault information
observed through the std::fs API used by the code:
  * `file ok data`   - a regular file; `ok = false` means `fs::copy` reading it
                       fails (the code ignores the result, line 77).
  * `dir readable l` - a directory with entry list `l`; `readable = false`
                       means `read_dir` on it fails (lines 69 and 90).
  * `typeErr`        - an entry whose `file_type()` call fails (lines 71, 92).
  * `special`        - `file_type()` succeeds but the entry is neither a file
                       nor a directory (e.g. a symlink), so neither branch of
                       lines 76-81 runs.
A destination position is an `Option Entry`: `none` means nothing exists at
that path yet.  Directory entry lists are association lists keyed by name;
`read_dir` iteration order is the list order.  `path.file_name()` (line 73) is
always `Some` for entries produced by `read_dir`, so every modelled entry
carries a name.
-/

inductive Entry : Type where
  | file (ok : Bool) (data : Nat)
  | dir (readable : Bool) (entries : List (String × Entry))
  | typeErr
  | special

/-- Look up the child named `n` (first match) in a directory's entry list. -/
def getEntry (n : String) : List (String × Entry) → Option Entry
  | [] => none
  | (m, v) :: rest => if n = m then some v else getEntry n rest

/-- Write the child named `n`: replace the first entry with that name, or
append a new entry when the name is absent. -/
def setEntry (n : String) (v : Entry) : List (String × Entry) → List (String × Entry)
  | [] => [(n, v)]
  | (m, w) :: rest => if n = m then (n, v) :: rest else (m, w) :: setEntry n v rest

def isTypeErr : Entry → Bool
  | .typeErr => true
  | _ => false

def isDir : Entry → Bool
  | .dir _ _ => true
  | _ => false

/-- `std::fs::create_dir_all(&destination)` (line 74): creates the destination
directory when nothing exists there; when something already exists the call
either succeeds trivially (a directory) or fails (a file), and in both cases
the state is unchanged. -/
def cda : Option Entry → Option Entry
  | none => some (.dir true [])
  | some e => some e

mutual

/-- `fn copy(source, destination)` (lines 68-87): `read_dir(source)` yields the
entry list only for a readable directory; otherwise the `if let Ok` guard fails
and nothing happens. -/
def copy : Entry → Option Entry → Option Entry
  | .dir true es, d => copyList es d
  | _, d => d
termination_by s _ => 3 * sizeOf s
decreasing_by
  all_goals simp_wf
  all_goals omega

/-- The effect of one source entry on the same-named child of the destination
directory (lines 76-81), as a function from the current child (`cur`) to the
new child; `none` means every write for this entry failed, leaving the child
untouched.  A readable source file overwrites a file or fills an empty slot
(`fs::copy`, line 77) but fails onto a directory or special entry; an
unreadable source file writes nothing; a source directory is created when
absent (`create_dir`, line 79, which fails harmlessly when the name exists)
and then recursively copied into (line 80). -/
def childAct : Entry → Option Entry → Option Entry
  | .file true data, cur =>
    match cur with
    | none => some (.file true data)
    | some (.file _ _) => some (.file true data)
    | some _ => none
  | .file false _, _ => none
  | .typeErr, _ => none
  | .special, _ => none
  | .dir r ses, cur =>
    let start := match cur with | none => Entry.dir true [] | some c => c
    some ((copy (.dir r ses) (some start)).getD start)
termination_by s _ => 3 * sizeOf s + 1
decreasing_by
  all_goals simp_wf
  all_goals omega

/-- Apply `childAct` at key `n` of a directory's entry list. -/
def updE (n : String) (s : Entry) (es : List (String × Entry)) : List (String × Entry) :=
  match childAct s (getEntry n es) with
  | none => es
  | some v => setEntry n v es
termination_by 3 * sizeOf s + 2
decreasing_by
  all_goals simp_wf
  all_goals omega

/-- Process one source entry named `n` against the destination position: all
writes go through the destination's entry list, so if the destination is not a
directory every write fails and the state is unchanged. -/
def copyChild (n : String) (s : Entry) : Option Entry → Option Entry
  | some (.dir rd es) => some (.dir rd (updE n s es))
  | d => d
termination_by _ => 3 * sizeOf s + 3
decreasing_by
  all_goals simp_wf
  all_goals omega

/-- The `for entry in entries` loop of `copy` (lines 70-85): an entry whose
`file_type()` fails is skipped before any write; otherwise
`create_dir_all(&destination)` runs (line 74) and then the per-entry action. -/
def copyList : List (String × Entry) → Option Entry → Option Entry
  | [], d => d
  | (n, s) :: rest, d =>
    if isTypeErr s then copyList rest d
    else copyList rest (copyChild n s (cda d))
termination_by l _ => 3 * sizeOf l + 4
decreasing_by
  all_goals simp_wf
  all_goals omega

end

mutual

/-- `fn copy_to_profile(source, destination, profile)` (lines 89-106):
`read_dir(destination)` yields children only of a readable directory. -/
def copy_to_profile (source : Entry) (destination : Entry) (profile : String) : Entry :=
  match destination with
  | .dir true es => .dir true (ctpList source es profile)
  | d => d

/-- The `for file in files` loop of `copy_to_profile` (lines 91-104): entries
with failing `file_type()` or that are not directories are skipped; a child
directory named `profile` receives `copy(source, &mut path)` (line 97) and is
not recursed into; any other child directory is searched recursively
(line 99). -/
def ctpList (source : Entry) : List (String × Entry) → String → List (String × Entry)
  | [], _ => []
  | (n, c) :: rest, profile =>
    let c₂ := match c with
      | .dir r ces =>
        if n = profile then (copy source (some (.dir r ces))).getD (.dir r ces)
        else match r with
          | true => .dir true (ctpList source ces profile)
          | false => .dir false ces
      | other => other
    (n, c₂) :: ctpList source rest profile
termination_by l _ => 3 * sizeOf l + 1
decreasing_by
  all_goals simp_wf
  all_goals omega

end

mutual

/-- The set of paths (as lists of name components beneath the search root) at
which `copy_to_profile` invokes `copy`, read off from the same traversal. -/
def targets (destination : Entry) (profile : String) : List (List String) :=
  match destination with
  | .dir true es => targetsList es profile
  | _ => []

def targetsList : List (String × Entry) → String → List (List String)
  | [], _ => []
  | (n, c) :: rest, profile =>
    (match c with
     | .dir r ces =>
       if n = profile then [[n]]
       else match r with
         | true => (targetsList ces profile).map (fun q => n :: q)
         | false => []
     | _ => []) ++ targetsList rest profile

end

mutual

/-- Every directory in the tree is readable. -/
def allReadable : Entry → Bool
  | .dir r es => r && allReadableL es
  | _ => true

def allReadableL : List (String × Entry) → Bool
  | [] => true
  | (_, c) :: rest => allReadable c && allReadableL rest

end

mutual

/-- No directory of the tree has two entries with the same name (true of any
tree produced by a real filesystem). -/
def keysNodup : Entry → Bool
  | .dir _ es => keysNodupL es
  | _ => true

def keysNodupL : List (String × Entry) → Bool
  | [] => true
  | (n, c) :: rest => !(rest.map Prod.fst).contains n && keysNodup c && keysNodupL rest

end

/-- The path `q` resolves from `e` to a directory (children resolved through
`getEntry`; the empty path is `e` itself). -/
def isDirAt : Entry → List String → Bool
  | e, [] => isDir e
  | .dir _ es, n :: q =>
    (match getEntry n es with
     | some c => isDirAt c q
     | none => false)
  | _, _ :: _ => false

/-- Top-level names contributed by a `copy` source: the names of the entries
the copy loop iterates over (empty when `read_dir` would fail). -/
def topKeys : Entry → List String
  | .dir true es => es.map Prod.fst
  | _ => []

/-- The child named `n` of a destination position, when that position is a
directory. -/
def childAt (d : Option Entry) (n : String) : Option Entry :=
  match d with
  | some (.dir _ es) => getEntry n es
  | _ => none

/-- The architecture mapper (lines 115-121): the `match` on
`CARGO_CFG_TARGET_ARCH` with its `panic!` arm modelled as `Except.error`
carrying the panic message. -/
def archDir (arch : String) : Except String String :=
  if arch = "x86_64" then .ok "x64"
  else if arch = "x86" then .ok "x86"
  else if arch = "arm" then .ok "arm"
  else if arch = "aarch64" then .ok "arm64"
  else .error ("Unexpected `" ++ arch ++ "` architecture set by `CARGO_CFG_TARGET_ARCH`")

/-- `str::find(';')` (line 48): index of the first `;`, if any. -/
def semiIdx : List Char → Option Nat
  | [] => none
  | c :: rest => if c = ';' then some 0 else (semiIdx rest).map (fun i => i + 1)

/-- Split a path string into its components at `\` separators, modelling the
components of the `PathBuf` built on line 127 (`PathBuf::pop` drops the last
component). -/
def splitComps : List Char → List (List Char)
  | [] => [[]]
  | c :: rest =>
    if c = '\\' then [] :: splitComps rest
    else
      match splitComps rest with
      | [] => [[c]]
      | g :: gs => (c :: g) :: gs

/-- The output-tree root computed by `build` (lines 47-49 and 127-129): take
the prefix of the `PATH` value up to the first `;` (`expect` aborts when `PATH`
is unset or has no `;`), turn it into a path and pop two components. -/
def targetRoot (path : Option String) : Except String (List (List Char)) :=
  match path with
  | none => .error "No `PATH` env variable set"
  | some s =>
    match semiIdx s.toList with
    | none => .error "Path not ending in `;`"
    | some i => .ok ((splitComps (s.toList.take i)).dropLast.dropLast)

/-- Observable build-system effects of lines 111-125: whether the
`cargo:rerun-if-changed` directive was printed, whether the
`cargo:rustc-link-search` directive was printed, and whether the architecture
`match` panicked. -/
structure SignalEffects where
  rerun : Bool
  linkSearch : Bool
  archAbort : Bool
deriving DecidableEq

def entriesOf : Entry → List (String × Entry)
  | .dir _ es => es
  | _ => []

/-- Lines 111-125 of `build`: `w` is what exists at `CARGO_MANIFEST_DIR/.windows`
(`none` when nothing does).  When it exists, `rerun-if-changed` is printed
(line 112) before the architecture is resolved (line 115, which may panic);
`rustc-link-search` is printed only when the architecture-named child also
exists (lines 123-125). -/
def deploySignals (w : Option Entry) (arch : String) : SignalEffects :=
  match w with
  | none => ⟨false, false, false⟩
  | some root =>
    match archDir arch with
    | .error _ => ⟨true, false, true⟩
    | .ok a => ⟨true, (getEntry a (entriesOf root)).isSome, false⟩

/-- Technical side condition for commuting per-entry copy actions: if the
action of source entry `s` at key `n` of destination `e` writes something,
then key `n` is already present (so the write is an in-place replacement, not
an append).  It holds at every destination that the action for `(n, s)` has
already been applied to. -/
def writeReady (n : String) (s : Entry) (e : Entry) : Prop :=
  match e with
  | .dir _ es => (childAct s (getEntry n es)).isSome = true → (getEntry n es).isSome = true
  | _ => True

/-- `impl ToTokens for RawString` (lines 12-18): three `push_str` calls onto the
token buffer. -/
def rawStringToTokens (self : String) (tokens : String) : String :=
  ((tokens ++ "r#\"") ++ self) ++ "\"#"

/-- The `generate` macro's framing (lines 150-153): build the blob from an
empty buffer with the same three `push_str` calls. -/
def generateBlob (s : String) : String :=
  (("" ++ "r#\"") ++ s) ++ "\"#"

/-! ### Association-list lemmas -/

theorem getEntry_setEntry_self (n : String) (v : Entry) (es : List (String × Entry)) :
    getEntry n (setEntry n v es) = some v := by
  induction es with
  | nil => simp [getEntry, setEntry]
  | cons p rest ih =>
    obtain ⟨m, w⟩ := p
    by_cases h : n = m <;> simp [getEntry, setEntry, h, ih]

theorem getEntry_setEntry_ne (m n : String) (hmn : m ≠ n) (v : Entry)
    (es : List (String × Entry)) : getEntry m (setEntry n v es) = getEntry m es := by
  induction es with
  | nil => simp [getEntry, setEntry, hmn]
  | cons p rest ih =>
    obtain ⟨k, w⟩ := p
    by_cases h : n = k
    · subst h
      simp [getEntry, setEntry, hmn]
    · by_cases h2 : m = k <;> simp [getEntry, setEntry, h, h2, ih]

theorem setEntry_same (n : String) (v : Entry) (es : List (String × Entry))
    (h : getEntry n es = some v) : setEntry n v es = es := by
  induction es with
  | nil => simp [getEntry] at h
  | cons p rest ih =>
    obtain ⟨k, w⟩ := p
    by_cases hk : n = k
    · subst hk
      simp [getEntry] at h
      simp [setEntry, h]
    · simp [getEntry, hk] at h
      simp [setEntry, hk, ih h]

theorem setEntry_setEntry_self (n : String) (v w : Entry) (es : List (String × Entry)) :
    setEntry n v (setEntry n w es) = setEntry n v es := by
  induction es with
  | nil => simp [setEntry]
  | cons p rest ih =>
    obtain ⟨k, u⟩ := p
    by_cases hk : n = k <;> simp [setEntry, hk, ih]

theorem setEntry_comm (n m : String) (hnm : n ≠ m) (v w w0 : Entry)
    (es : List (String × Entry)) (h : getEntry n es = some w0) :
    setEntry n v (setEntry m w es) = setEntry m w (setEntry n v es) := by
  induction es with
  | nil => simp [getEntry] at h
  | cons p rest ih =>
    obtain ⟨k, u⟩ := p
    by_cases hk : n = k
    · subst hk
      have hmk : ¬ m = n := fun h2 => hnm h2.symm
      simp [setEntry, hmk, hnm]
    · simp [getEntry, hk] at h
      by_cases hmk : m = k
      · subst hmk
        simp [setEntry, hk, hnm, fun h2 : n = m => hnm h2]
      · simp [setEntry, hk, hmk, ih h]

theorem getEntry_mem (n : String) (c : Entry) (l : List (String × Entry))
    (h : getEntry n l = some c) : n ∈ l.map Prod.fst := by
  induction l with
  | nil => simp [getEntry] at h
  | cons p rest ih =>
    obtain ⟨k, w⟩ := p
    by_cases hk : n = k
    · simp [hk]
    · simp [getEntry, hk] at h
      simp [ih h]

theorem sizeOf_getEntry (n : String) (c : Entry) (l : List (String × Entry))
    (h : getEntry n l = some c) : sizeOf c < sizeOf l := by
  induction l with
  | nil => simp [getEntry] at h
  | cons p rest ih =>
    obtain ⟨k, w⟩ := p
    by_cases hk : n = k
    · simp [getEntry, hk] at h
      subst h
      simp
      omega
    · simp [getEntry, hk] at h
      have := ih h
      simp
      omega

/-! ### Structure lemmas for the copy loop -/

theorem cda_some (e : Entry) : cda (some e) = some e := rfl

theorem copyChild_dir (n : String) (s : Entry) (r : Bool) (es : List (String × Entry)) :
    copyChild n s (some (.dir r es)) = some (.dir r (updE n s es)) := by
  simp [copyChild]

theorem copyChild_nondir (n : String) (s : Entry) (e : Entry) (h : isDir e = false) :
    copyChild n s (some e) = some e := by
  cases e <;> simp_all [copyChild, isDir]

theorem copyChild_some (n : String) (s : Entry) (e : Entry) :
    ∃ e₂, copyChild n s (some e) = some e₂ := by
  cases e <;> simp [copyChild]

theorem copyList_nondir (l : List (String × Entry)) (e : Entry) (h : isDir e = false) :
    copyList l (some e) = some e := by
  induction l with
  | nil => simp [copyList]
  | cons p rest ih =>
    obtain ⟨n, s⟩ := p
    by_cases ht : isTypeErr s = true <;>
      simp [copyList, ht, cda_some, copyChild_nondir n s e h, ih]

theorem copyList_some (l : List (String × Entry)) (e : Entry) :
    ∃ e₂, copyList l (some e) = some e₂ := by
  induction l generalizing e with
  | nil => exact ⟨e, by simp [copyList]⟩
  | cons p rest ih =>
    obtain ⟨n, s⟩ := p
    by_cases ht : isTypeErr s = true
    · obtain ⟨e₂, h₂⟩ := ih e
      exact ⟨e₂, by simp [copyList, ht, h₂]⟩
    · obtain ⟨e₁, h₁⟩ := copyChild_some n s e
      obtain ⟨e₂, h₂⟩ := ih e₁
      exact ⟨e₂, by simp [copyList, ht, cda_some, h₁, h₂]⟩

theorem getEntry_updE_ne (m n : String) (hmn : m ≠ n) (s : Entry)
    (es : List (String × Entry)) : getEntry m (updE n s es) = getEntry m es := by
  rw [updE]
  cases childAct s (getEntry n es) with
  | none => rfl
  | some v => exact getEntry_setEntry_ne m n hmn v es

theorem copyList_frame (n : String) (l : List (String × Entry))
    (hn : n ∉ l.map Prod.fst) :
    ∀ (r : Bool) (es : List (String × Entry)),
      ∃ es₂, copyList l (some (.dir r es)) = some (.dir r es₂) ∧
        getEntry n es₂ = getEntry n es := by
  induction l with
  | nil => exact fun r es => ⟨es, by simp [copyList], rfl⟩
  | cons p rest ih =>
    obtain ⟨m, s⟩ := p
    simp only [List.map_cons, List.mem_cons] at hn
    push_neg at hn
    intro r es
    by_cases ht : isTypeErr s = true
    · obtain ⟨es₂, h₂, hg⟩ := ih hn.2 r es
      exact ⟨es₂, by simp [copyList, ht, h₂], hg⟩
    · obtain ⟨es₂, h₂, hg⟩ := ih hn.2 r (updE m s es)
      refine ⟨es₂, by simp [copyList, ht, cda_some, copyChild_dir, h₂], ?_⟩
      rw [hg]
      exact getEntry_updE_ne n m hn.1 s es

theorem copy_some (s : Entry) (e : Entry) : ∃ e₂, copy s (some e) = some e₂ := by
  cases s with
  | dir r es =>
    cases r with
    | true =>
      obtain ⟨e₂, h₂⟩ := copyList_some es e
      exact ⟨e₂, by simp [copy, h₂]⟩
    | false => exact ⟨e, by simp [copy]⟩
  | file ok k => exact ⟨e, by simp [copy]⟩
  | typeErr => exact ⟨e, by simp [copy]⟩
  | special => exact ⟨e, by simp [copy]⟩

/-! ### Commutation of independent per-entry actions -/

theorem updE_none (n : String) (s : Entry) (es : List (String × Entry))
    (h : childAct s (getEntry n es) = none) : updE n s es = es := by
  rw [updE, h]

theorem updE_some (n : String) (s v : Entry) (es : List (String × Entry))
    (h : childAct s (getEntry n es) = some v) : updE n s es = setEntry n v es := by
  rw [updE, h]

theorem updE_comm (n m : String) (hnm : n ≠ m) (s t : Entry)
    (es : List (String × Entry))
    (hw : (childAct s (getEntry n es)).isSome = true → (getEntry n es).isSome = true) :
    updE n s (updE m t es) = updE m t (updE n s es) := by
  have hg : getEntry n (updE m t es) = getEntry n es := getEntry_updE_ne n m hnm t es
  have hg2 : getEntry m (updE n s es) = getEntry m es :=
    getEntry_updE_ne m n (fun h => hnm h.symm) s es
  cases ha : childAct s (getEntry n es) with
  | none =>
    have ha1 : childAct s (getEntry n (updE m t es)) = none := by rw [hg, ha]
    cases hb : childAct t (getEntry m es) with
    | none =>
      have hb1 : childAct t (getEntry m (updE n s es)) = none := by rw [hg2, hb]
      rw [updE_none n s _ ha1, updE_none m t es hb, updE_none m t _ hb1, updE_none n s es ha]
    | some w =>
      have hb1 : childAct t (getEntry m (updE n s es)) = some w := by rw [hg2, hb]
      rw [updE_none n s _ ha1, updE_some m t w _ hb1, updE_none n s es ha,
        updE_some m t w es hb]
  | some v =>
    obtain ⟨w0, hw0⟩ : ∃ w0, getEntry n es = some w0 := by
      have := hw (by simp [ha])
      cases h0 : getEntry n es with
      | none => simp [h0] at this
      | some w0 => exact ⟨w0, rfl⟩
    have ha1 : childAct s (getEntry n (updE m t es)) = some v := by rw [hg, ha]
    cases hb : childAct t (getEntry m es) with
    | none =>
      have hb1 : childAct t (getEntry m (updE n s es)) = none := by rw [hg2, hb]
      rw [updE_some n s v _ ha1, updE_none m t es hb, updE_none m t _ hb1, updE_some n s v es ha]
    | some w =>
      have hb1 : childAct t (getEntry m (updE n s es)) = some w := by rw [hg2, hb]
      rw [updE_some n s v _ ha1, updE_some m t w es hb, updE_some m t w _ hb1,
        updE_some n s v es ha]
      exact setEntry_comm n m hnm v w w0 es hw0

theorem copyChild_comm (n m : String) (hnm : n ≠ m) (s t : Entry) (e : Entry)
    (hw : writeReady n s e) :
    copyChild n s (copyChild m t (some e)) = copyChild m t (copyChild n s (some e)) := by
  cases e with
  | dir r es =>
    rw [copyChild_dir, copyChild_dir, copyChild_dir, copyChild_dir]
    rw [updE_comm n m hnm s t es hw]
  | file ok k => simp [copyChild]
  | typeErr => simp [copyChild]
  | special => simp [copyChild]

theorem writeReady_copyChild (n m : String) (hnm : m ≠ n) (s t : Entry) (e e₂ : Entry)
    (hw : writeReady n s e) (h : copyChild m t (some e) = some e₂) : writeReady n s e₂ := by
  cases e with
  | dir r es =>
    rw [copyChild_dir] at h
    cases h
    rw [writeReady, getEntry_updE_ne n m (fun hh => hnm hh.symm) t es]
    exact hw
  | file ok k =>
    simp [copyChild] at h
    cases h
    trivial
  | typeErr =>
    simp [copyChild] at h
    cases h
    trivial
  | special =>
    simp [copyChild] at h
    cases h
    trivial

theorem writeReady_self (n : String) (s : Entry) (e₀ e₁ : Entry)
    (h : copyChild n s (some e₀) = some e₁) : writeReady n s e₁ := by
  cases e₀ with
  | dir r es =>
    rw [copyChild_dir] at h
    cases h
    rw [writeReady]
    rw [updE]
    cases ha : childAct s (getEntry n es) with
    | none => simpa [ha] using fun hh => hh
    | some v => simp [getEntry_setEntry_self, ha]
  | file ok k =>
    simp [copyChild] at h
    cases h
    trivial
  | typeErr =>
    simp [copyChild] at h
    cases h
    trivial
  | special =>
    simp [copyChild] at h
    cases h
    trivial

theorem copyChild_copyList_comm (n : String) (s : Entry) (l : List (String × Entry))
    (hn : n ∉ l.map Prod.fst) :
    ∀ (e : Entry), writeReady n s e →
      copyChild n s (copyList l (some e)) = copyList l (copyChild n s (some e)) := by
  induction l with
  | nil => intro e _; simp [copyList]
  | cons p rest ih =>
    obtain ⟨m, t⟩ := p
    simp only [List.map_cons, List.mem_cons] at hn
    push_neg at hn
    intro e hw
    obtain ⟨e₂, h₂⟩ := copyChild_some m t e
    obtain ⟨e₃, h₃⟩ := copyChild_some n s e
    by_cases ht : isTypeErr t = true
    · simp only [copyList, ht, if_pos]
      exact ih hn.2 e hw
    · simp only [copyList, ht, if_neg, Bool.false_eq_true, not_false_iff, cda_some, h₂]
      rw [ih hn.2 e₂ (writeReady_copyChild n m (Ne.symm hn.1) s t e e₂ hw h₂), ← h₂,
        copyChild_comm n m hn.1 s t e hw, h₃, cda_some]

/-! ### Idempotence of the copy loop -/

mutual

theorem childAct_written (s : Entry) (hs : keysNodup s = true) (cur : Option Entry) (v : Entry)
    (h : childAct s cur = some v) : childAct s (some v) = some v := by
  have hcopy := copy_idem s hs
  cases s with
  | file ok k =>
    cases ok with
    | true =>
      cases cur with
      | none =>
        simp only [childAct, Option.some.injEq] at h
        subst h
        simp [childAct]
      | some c =>
        cases c with
        | file ok2 k2 =>
          simp only [childAct, Option.some.injEq] at h
          subst h
          simp [childAct]
        | dir r2 es2 => simp [childAct] at h
        | typeErr => simp [childAct] at h
        | special => simp [childAct] at h
    | false => simp [childAct] at h
  | typeErr => simp [childAct] at h
  | special => simp [childAct] at h
  | dir r ses =>
    cases cur with
    | none =>
      obtain ⟨w, hw⟩ := copy_some (.dir r ses) (.dir true [])
      simp only [childAct, hw, Option.getD_some, Option.some.injEq] at h
      subst h
      have hcc := hcopy (some (.dir true []))
      rw [hw] at hcc
      simp only [childAct, hcc, Option.getD_some]
    | some c =>
      obtain ⟨w, hw⟩ := copy_some (.dir r ses) c
      simp only [childAct, hw, Option.getD_some, Option.some.injEq] at h
      subst h
      have hcc := hcopy (some c)
      rw [hw] at hcc
      simp only [childAct, hcc, Option.getD_some]
termination_by 3 * sizeOf s + 1
decreasing_by
  all_goals simp_wf
  all_goals omega

theorem copyChild_idem (n : String) (s : Entry) (hs : keysNodup s = true) (e : Entry) :
    copyChild n s (copyChild n s (some e)) = copyChild n s (some e) := by
  cases e with
  | dir r es =>
    simp only [copyChild_dir]
    cases ha : childAct s (getEntry n es) with
    | none => rw [updE_none n s es ha, updE_none n s es ha]
    | some v =>
      rw [updE_some n s v es ha]
      have ha2 : childAct s (getEntry n (setEntry n v es)) = some v := by
        rw [getEntry_setEntry_self]
        exact childAct_written s hs (getEntry n es) v ha
      rw [updE_some n s v _ ha2, setEntry_setEntry_self]
  | file ok k => simp [copyChild]
  | typeErr => simp [copyChild]
  | special => simp [copyChild]
termination_by 3 * sizeOf s + 3
decreasing_by
  all_goals simp_wf
  all_goals omega

theorem copyList_idem (l : List (String × Entry)) (hl : keysNodupL l = true) :
    ∀ d, copyList l (copyList l d) = copyList l d := by
  intro d
  match l with
  | [] => simp [copyList]
  | (n, s) :: rest =>
    rw [keysNodupL] at hl
    simp only [Bool.and_eq_true] at hl
    obtain ⟨⟨hl0, hl2⟩, hl3⟩ := hl
    have hl1 : n ∉ rest.map Prod.fst := by simpa using hl0
    by_cases ht : isTypeErr s = true
    · simp only [copyList, ht, if_pos]
      exact copyList_idem rest hl3 d
    · obtain ⟨e₀, he₀⟩ : ∃ e₀, cda d = some e₀ := by cases d <;> exact ⟨_, rfl⟩
      obtain ⟨e₁, he₁⟩ := copyChild_some n s e₀
      obtain ⟨e₂, he₂⟩ := copyList_some rest e₁
      have hred : copyList ((n, s) :: rest) d = copyList rest (some e₁) := by
        simp only [copyList, ht, if_neg, Bool.false_eq_true, not_false_iff]
        rw [he₀, he₁]
      rw [hred, he₂]
      simp only [copyList, ht, if_neg, Bool.false_eq_true, not_false_iff, cda_some]
      rw [← he₂, copyChild_copyList_comm n s rest hl1 e₁ (writeReady_self n s e₀ e₁ he₁)]
      have hidem : copyChild n s (some e₁) = some e₁ := by
        have h2 := copyChild_idem n s hl2 e₀
        rw [he₁] at h2
        exact h2
      rw [hidem]
      exact copyList_idem rest hl3 (some e₁)
termination_by 3 * sizeOf l + 4
decreasing_by
  all_goals simp_wf
  all_goals omega

theorem copy_idem (s : Entry) (hs : keysNodup s = true) :
    ∀ d, copy s (copy s d) = copy s d := by
  intro d
  cases hseq : s with
  | dir r es =>
    cases r with
    | true =>
      rw [hseq, keysNodup] at hs
      simp only [copy]
      exact copyList_idem es hs d
    | false => simp [copy]
  | file ok k => simp [copy]
  | typeErr => simp [copy]
  | special => simp [copy]
termination_by 3 * sizeOf s
decreasing_by
  all_goals simp_wf
  all_goals subst_vars
  all_goals simp [Entry.dir.sizeOf_spec]
  all_goals omega

end

/-! ### Frame property of the copy loop -/

theorem copy_frame (s : Entry) (r : Bool) (es : List (String × Entry)) (n : String)
    (hn : n ∉ topKeys s) :
    ∃ es₂, copy s (some (.dir r es)) = some (.dir r es₂) ∧
      getEntry n es₂ = getEntry n es := by
  cases s with
  | dir rs ses =>
    cases rs with
    | true =>
      simp only [topKeys] at hn
      obtain ⟨es₂, h₂, hg⟩ := copyList_frame n ses hn r es
      exact ⟨es₂, by simpa [copy] using h₂, hg⟩
    | false => exact ⟨es, by simp [copy], rfl⟩
  | file ok k => exact ⟨es, by simp [copy], rfl⟩
  | typeErr => exact ⟨es, by simp [copy], rfl⟩
  | special => exact ⟨es, by simp [copy], rfl⟩

theorem copyChild_inert (n : String) (k : Nat) (e : Entry) :
    copyChild n (.file false k) (some e) = some e := by
  cases e with
  | dir r es =>
    rw [copyChild_dir, updE_none n (.file false k) es (by simp [childAct])]
  | file ok j => simp [copyChild]
  | typeErr => simp [copyChild]
  | special => simp [copyChild]

/-! ### Claim theorems -/

/-- C1: the Architecture Mapper returns `x64` for `x86_64`, `x86` for `x86`,
`arm` for `arm`, `arm64` for `aarch64`, and for every other input aborts
fatally with a panic message naming the unexpected value. -/
theorem arch_mapper_spec :
    archDir "x86_64" = .ok "x64" ∧ archDir "x86" = .ok "x86" ∧
    archDir "arm" = .ok "arm" ∧ archDir "aarch64" = .ok "arm64" ∧
    ∀ a : String, a ≠ "x86_64" → a ≠ "x86" → a ≠ "arm" → a ≠ "aarch64" →
      archDir a =
        .error ("Unexpected `" ++ a ++ "` architecture set by `CARGO_CFG_TARGET_ARCH`") := by
  refine ⟨rfl, rfl, rfl, rfl, ?_⟩
  intro a h1 h2 h3 h4
  simp [archDir, h1, h2, h3, h4]

theorem arch_mapper_spec_witness :
    ("riscv64" : String) ≠ "x86_64" ∧
    archDir "riscv64" =
      .error "Unexpected `riscv64` architecture set by `CARGO_CFG_TARGET_ARCH`" :=
  ⟨by decide, arch_mapper_spec.2.2.2.2 "riscv64" (by decide) (by decide) (by decide) (by decide)⟩

/-- C3: Tree Mirror is idempotent — copying the same source tree twice leaves
the destination exactly as after one copy — and an entry added to the
destination between the two copies under a name that does not occur in the
source is still present (with the same content) after the second copy.
(`keysNodup` states that the source tree, like any real directory tree, has no
duplicate names within a directory.) -/
theorem copy_idempotent_claim (s : Entry) (d : Option Entry) (hs : keysNodup s = true) :
    copy s (copy s d) = copy s d ∧
    ∀ (r : Bool) (es : List (String × Entry)) (n : String) (e : Entry),
      n ∉ topKeys s → getEntry n es = some e →
        childAt (copy s (some (.dir r es))) n = some e := by
  refine ⟨copy_idem s hs d, ?_⟩
  intro r es n e hn he
  obtain ⟨es₂, hc, hg⟩ := copy_frame s r es n hn
  rw [hc, childAt, hg, he]

theorem copy_idempotent_claim_witness :
    keysNodup (Entry.dir true [("bin", .dir true [("a", .file true 1)])]) = true ∧
    copy (.dir true [("bin", .dir true [("a", .file true 1)])])
        (copy (.dir true [("bin", .dir true [("a", .file true 1)])])
          (some (.dir true [("keep", .file true 7)]))) =
      copy (.dir true [("bin", .dir true [("a", .file true 1)])])
        (some (.dir true [("keep", .file true 7)])) ∧
    childAt
        (copy (.dir true [("bin", .dir true [("a", .file true 1)])])
          (some (.dir true [("keep", .file true 7)]))) "keep" =
      some (.file true 7) :=
  ⟨rfl,
    (copy_idempotent_claim (.dir true [("bin", .dir true [("a", .file true 1)])])
      (some (.dir true [("keep", .file true 7)])) rfl).1,
    (copy_idempotent_claim (.dir true [("bin", .dir true [("a", .file true 1)])])
      (some (.dir true [("keep", .file true 7)])) rfl).2 true
      [("keep", .file true 7)] "keep" (.file true 7) (by decide) rfl⟩

/-- C4: Tree Mirror merges and never replaces — for a destination directory,
the copy result is the same directory (same readability) and every child whose
name does not occur among the source's entry names is unchanged. -/
theorem copy_merge_claim (s : Entry) (r : Bool) (es : List (String × Entry)) (n : String)
    (hn : n ∉ topKeys s) :
    ∃ es₂, copy s (some (.dir r es)) = some (.dir r es₂) ∧
      getEntry n es₂ = getEntry n es :=
  copy_frame s r es n hn

theorem copy_merge_claim_witness :
    ("other" : String) ∉ topKeys (.dir true [("bin", .file true 1)]) ∧
    ∃ es₂, copy (.dir true [("bin", .file true 1)])
        (some (.dir true [("other", .special)])) = some (.dir true es₂) ∧
      getEntry "other" es₂ = getEntry "other" [("other", Entry.special)] :=
  ⟨by decide,
    copy_merge_claim (.dir true [("bin", .file true 1)]) true [("other", .special)]
      "other" (by decide)⟩

/-- C5: filesystem failures during deployment are non-fatal and local — a
source whose `read_dir` fails copies nothing; an entry whose `file_type` fails
is skipped while the remaining entries are still processed; an entry whose
`fs::copy` fails only performs the preceding `create_dir_all`, and the rest of
the loop continues; when the destination is a file (so `create_dir_all`,
`create_dir` and `fs::copy` all fail) the whole loop completes without any
change; and the profile locator likewise skips a search directory whose
`read_dir` fails and skips entries whose `file_type` fails while continuing
with the rest.  All the modelled routines return normally in every case. -/
theorem deploy_errors_nonfatal_claim :
    (∀ es d, copy (.dir false es) d = d) ∧
    (∀ n rest d, copyList ((n, Entry.typeErr) :: rest) d = copyList rest d) ∧
    (∀ n k rest d, copyList ((n, Entry.file false k) :: rest) d = copyList rest (cda d)) ∧
    (∀ l ok k, copyList l (some (.file ok k)) = some (.file ok k)) ∧
    (∀ s es p, copy_to_profile s (.dir false es) p = .dir false es) ∧
    (∀ s n rest p, ctpList s ((n, Entry.typeErr) :: rest) p =
      (n, Entry.typeErr) :: ctpList s rest p) := by
  refine ⟨?_, ?_, ?_, ?_, ?_, ?_⟩
  · intro es d; simp [copy]
  · intro n rest d; simp [copyList, isTypeErr]
  · intro n k rest d
    simp only [copyList, isTypeErr, Bool.false_eq_true, if_neg, not_false_iff]
    obtain ⟨e₀, he₀⟩ : ∃ e₀, cda d = some e₀ := by cases d <;> exact ⟨_, rfl⟩
    rw [he₀, copyChild_inert]
  · intro l ok k; exact copyList_nondir l (.file ok k) rfl
  · intro s es p; simp [copy_to_profile]
  · intro s n rest p; simp [ctpList]

/-- C10: when the source contributes nothing — `read_dir` on it fails (it is
unreadable, a file, or not stat-able) or it has no entries — `copy` changes
nothing at all; in particular a missing destination (`none`) is not created,
since `create_dir_all` only runs while processing an entry. -/
theorem copy_no_writes_claim :
    (∀ es d, copy (.dir false es) d = d) ∧
    (∀ d, copy (.dir true []) d = d) ∧
    (∀ ok k d, copy (.file ok k) d = d) ∧
    (∀ d, copy .typeErr d = d) ∧
    (∀ d, copy .special d = d) ∧
    copy (.dir true []) none = none ∧
    copy (.dir false [("a", .file true 0)]) none = none := by
  refine ⟨?_, ?_, ?_, ?_, ?_, ?_, ?_⟩ <;> first
    | (intro es d; simp [copy, copyList])
    | (intro ok k d; simp [copy, copyList])
    | (intro d; simp [copy, copyList])
    | simp [copy, copyList]

/-- C8: the Code Emitter frames the resolved text as a raw string literal with
no transformation: the emitted blob is exactly `r#"` ++ s ++ `"#`, and the
`ToTokens` implementation appends exactly that to the token buffer. -/
theorem raw_string_frame_claim (s tokens : String) :
    generateBlob s = "r#\"" ++ s ++ "\"#" ∧
    rawStringToTokens s tokens = tokens ++ ("r#\"" ++ s ++ "\"#") := by
  constructor
  · simp [generateBlob]
  · simp [rawStringToTokens, String.append_assoc]

/-! ### Shape of the profile locator's copy targets -/

mutual

theorem targets_shape (e : Entry) (p : String) (q : List String) (h : q ∈ targets e p) :
    q ≠ [] ∧ q.getLast? = some p ∧ ∀ x ∈ q.dropLast, x ≠ p := by
  cases e with
  | dir r es =>
    cases r with
    | true =>
      rw [targets] at h
      exact targetsList_shape es p q h
    | false => simp [targets] at h
  | file ok k => simp [targets] at h
  | typeErr => simp [targets] at h
  | special => simp [targets] at h

theorem targetsList_shape (l : List (String × Entry)) (p : String) (q : List String)
    (h : q ∈ targetsList l p) :
    q ≠ [] ∧ q.getLast? = some p ∧ ∀ x ∈ q.dropLast, x ≠ p := by
  match l with
  | [] => simp [targetsList] at h
  | (n, Entry.dir r ces) :: rest =>
    rw [targetsList.eq_def] at h
    by_cases hp : n = p
    · simp [hp] at h
      rcases h with rfl | h2
      · exact ⟨by simp, by simp, by simp⟩
      · exact targetsList_shape rest p q h2
    · cases r with
      | true =>
        simp [hp] at h
        rcases h with ⟨q', hq', rfl⟩ | h2
        · obtain ⟨hne, hlast, hdrop⟩ := targetsList_shape ces p q' hq'
          match q' with
          | [] => exact absurd rfl hne
          | b :: t =>
            refine ⟨by simp, by rw [List.getLast?_cons_cons]; exact hlast, ?_⟩
            rw [List.dropLast_cons₂]
            intro x hx
            rcases List.mem_cons.mp hx with rfl | hx2
            · exact hp
            · exact hdrop x hx2
        · exact targetsList_shape rest p q h2
      | false =>
        simp [hp] at h
        exact targetsList_shape rest p q h
  | (n, Entry.file ok k) :: rest =>
    rw [targetsList.eq_def] at h
    simp at h
    exact targetsList_shape rest p q h
  | (n, Entry.typeErr) :: rest =>
    rw [targetsList.eq_def] at h
    simp at h
    exact targetsList_shape rest p q h
  | (n, Entry.special) :: rest =>
    rw [targetsList.eq_def] at h
    simp at h
    exact targetsList_shape rest p q h
termination_by 3 * sizeOf l + 1
decreasing_by
  all_goals simp_wf
  all_goals omega

end

/-- C9: the Profile Locator never copies into the search root itself (every
copy target is a nonempty path strictly below the root), every target ends in
the profile name, and no target passes through a profile-named ancestor — a
profile-named directory nested inside another match never receives a copy. -/
theorem profile_locator_minimal_claim (e : Entry) (p : String) (q : List String)
    (h : q ∈ targets e p) :
    q ≠ [] ∧ q.getLast? = some p ∧ ∀ x ∈ q.dropLast, x ≠ p :=
  targets_shape e p q h

theorem profile_locator_minimal_claim_witness :
    ["release"] ∈ targets (.dir true [("release", .dir true [])]) "release" ∧
    (["release"] ≠ ([] : List String) ∧
      (["release"] : List String).getLast? = some "release" ∧
      ∀ x ∈ (["release"] : List String).dropLast, x ≠ "release") :=
  ⟨by simp [targets, targetsList],
    profile_locator_minimal_claim (.dir true [("release", .dir true [])]) "release"
      ["release"] (by simp [targets, targetsList])⟩

/-! ### Characterization of the profile locator's copy targets -/

theorem getEntry_cons_self (n₀ : String) (c₀ : Entry) (rest : List (String × Entry)) :
    getEntry n₀ ((n₀, c₀) :: rest) = some c₀ := by
  simp [getEntry]

theorem getEntry_cons_ne (m n₀ : String) (hmn : m ≠ n₀) (c₀ : Entry)
    (rest : List (String × Entry)) :
    getEntry m ((n₀, c₀) :: rest) = getEntry m rest := by
  simp [getEntry, hmn]

theorem targetsList_cons_dir_true (n₀ : String) (ces rest : List (String × Entry))
    (p : String) :
    targetsList ((n₀, .dir true ces) :: rest) p =
      (if n₀ = p then [[n₀]] else (targetsList ces p).map (fun q => n₀ :: q)) ++
        targetsList rest p := by
  rw [targetsList.eq_def]

theorem targetsList_cons_skip (n₀ : String) (c : Entry) (rest : List (String × Entry))
    (p : String) (hc : isDir c = false) :
    targetsList ((n₀, c) :: rest) p = targetsList rest p := by
  cases c with
  | dir r ces => simp [isDir] at hc
  | file ok k => rw [targetsList.eq_def]; simp
  | typeErr => rw [targetsList.eq_def]; simp
  | special => rw [targetsList.eq_def]; simp

/-- Unfolding of `isDirAt` through one directory level, bundled with the
target-path side conditions. -/
theorem isDirAt_cons_iff (ces : List (String × Entry)) (q : List String) (p : String) :
    (∃ n q' c, q = n :: q' ∧ getEntry n ces = some c ∧ isDirAt c q' = true ∧
      q.getLast? = some p ∧ ∀ x ∈ q.dropLast, x ≠ p) ↔
    (q ≠ [] ∧ isDirAt (.dir true ces) q = true ∧ q.getLast? = some p ∧
      ∀ x ∈ q.dropLast, x ≠ p) := by
  constructor
  · rintro ⟨n, q', c, rfl, hc, hd, hL, hD⟩
    refine ⟨by simp, ?_, hL, hD⟩
    rw [isDirAt, hc]
    exact hd
  · rintro ⟨hne, hdir, hL, hD⟩
    cases q with
    | nil => exact absurd rfl hne
    | cons n q' =>
      cases hgc : getEntry n ces with
      | none => rw [isDirAt, hgc] at hdir; simp at hdir
      | some c =>
        rw [isDirAt, hgc] at hdir
        exact ⟨n, q', c, rfl, hgc, hdir, hL, hD⟩

theorem targetsList_char (l : List (String × Entry)) (p : String) (q : List String)
    (hr : allReadableL l = true) (hn : keysNodupL l = true) :
    q ∈ targetsList l p ↔
      (∃ n q' c, q = n :: q' ∧ getEntry n l = some c ∧ isDirAt c q' = true ∧
        q.getLast? = some p ∧ ∀ x ∈ q.dropLast, x ≠ p) := by
  match l with
  | [] => simp [targetsList, getEntry]
  | (n₀, Entry.dir r ces) :: rest =>
    simp only [allReadableL, allReadable, Bool.and_eq_true] at hr
    obtain ⟨⟨hrr, hrces⟩, hrrest⟩ := hr
    simp only [keysNodupL, keysNodup, Bool.and_eq_true] at hn
    obtain ⟨⟨hn0, hnces⟩, hnrest⟩ := hn
    have hn0m : n₀ ∉ rest.map Prod.fst := by simpa using hn0
    cases r with
    | false => simp at hrr
    | true =>
      rw [targetsList_cons_dir_true]
      by_cases hp : n₀ = p
      · rw [if_pos hp]
        simp only [List.cons_append, List.nil_append, List.mem_cons]
        constructor
        · rintro (rfl | h2)
          · exact ⟨n₀, [], .dir true ces, rfl, getEntry_cons_self n₀ _ rest,
              by simp [isDirAt, isDir], by simp [hp], by simp⟩
          · obtain ⟨m, q', c, hq, hc, hd, hL, hD⟩ :=
              (targetsList_char rest p q hrrest hnrest).mp h2
            have hmn : m ≠ n₀ := fun he => hn0m (he ▸ getEntry_mem m c rest hc)
            exact ⟨m, q', c, hq, by rw [getEntry_cons_ne m n₀ hmn]; exact hc, hd, hL, hD⟩
        · rintro ⟨m, q', c, hq, hc, hd, hL, hD⟩
          by_cases hm : m = n₀
          · subst hm
            cases q' with
            | nil => left; exact hq
            | cons b t =>
              exfalso
              subst hq
              exact hD m (by rw [List.dropLast_cons₂]; exact List.mem_cons_self m _) hp
          · right
            rw [getEntry_cons_ne m n₀ hm] at hc
            exact (targetsList_char rest p q hrrest hnrest).mpr ⟨m, q', c, hq, hc, hd, hL, hD⟩
      · rw [if_neg hp]
        simp only [List.mem_append, List.mem_map]
        constructor
        · rintro (⟨q', hq', rfl⟩ | h2)
          · have hch := (isDirAt_cons_iff ces q' p).mp
              ((targetsList_char ces p q' hrces hnces).mp hq')
            obtain ⟨hne, hdir, hL', hD'⟩ := hch
            cases q' with
            | nil => exact absurd rfl hne
            | cons b t =>
              refine ⟨n₀, b :: t, .dir true ces, rfl, getEntry_cons_self n₀ _ rest, hdir,
                by rw [List.getLast?_cons_cons]; exact hL', ?_⟩
              rw [List.dropLast_cons₂]
              intro x hx
              rcases List.mem_cons.mp hx with rfl | hx2
              · exact hp
              · exact hD' x hx2
          · obtain ⟨m, q', c, hq, hc, hd, hL, hD⟩ :=
              (targetsList_char rest p q hrrest hnrest).mp h2
            have hmn : m ≠ n₀ := fun he => hn0m (he ▸ getEntry_mem m c rest hc)
            exact ⟨m, q', c, hq, by rw [getEntry_cons_ne m n₀ hmn]; exact hc, hd, hL, hD⟩
        · rintro ⟨m, q', c, hq, hc, hd, hL, hD⟩
          by_cases hm : m = n₀
          · subst hm
            rw [getEntry_cons_self] at hc
            injection hc with hc2
            subst hc2
            left
            cases q' with
            | nil =>
              exfalso
              subst hq
              simp only [List.getLast?_singleton, Option.some.injEq] at hL
              exact hp hL
            | cons b t =>
              subst hq
              refine ⟨b :: t, ?_, rfl⟩
              have hmem := (targetsList_char ces p (b :: t) hrces hnces).mpr
                ((isDirAt_cons_iff ces (b :: t) p).mpr
                  ⟨by simp, hd, by rw [List.getLast?_cons_cons] at hL; exact hL, ?_⟩)
              · exact hmem
              · intro x hx
                apply hD
                rw [List.dropLast_cons₂]
                exact List.mem_cons_of_mem _ hx
          · right
            rw [getEntry_cons_ne m n₀ hm] at hc
            exact (targetsList_char rest p q hrrest hnrest).mpr ⟨m, q', c, hq, hc, hd, hL, hD⟩
  | (n₀, Entry.file ok k) :: rest =>
    simp only [allReadableL, allReadable, Bool.true_and] at hr
    simp only [keysNodupL, keysNodup, Bool.and_eq_true, Bool.true_and] at hn
    obtain ⟨hn0, hnrest⟩ := hn
    have hn0m : n₀ ∉ rest.map Prod.fst := by simpa using hn0
    rw [targetsList_cons_skip n₀ _ rest p (by simp [isDir])]
    constructor
    · intro h2
      obtain ⟨m, q', c, hq, hc, hd, hL, hD⟩ := (targetsList_char rest p q hr hnrest).mp h2
      have hmn : m ≠ n₀ := fun he => hn0m (he ▸ getEntry_mem m c rest hc)
      exact ⟨m, q', c, hq, by rw [getEntry_cons_ne m n₀ hmn]; exact hc, hd, hL, hD⟩
    · rintro ⟨m, q', c, hq, hc, hd, hL, hD⟩
      by_cases hm : m = n₀
      · subst hm
        rw [getEntry_cons_self] at hc
        injection hc with hc2
        subst hc2
        cases q' <;> simp [isDirAt, isDir] at hd
      · rw [getEntry_cons_ne m n₀ hm] at hc
        exact (targetsList_char rest p q hr hnrest).mpr ⟨m, q', c, hq, hc, hd, hL, hD⟩
  | (n₀, Entry.typeErr) :: rest =>
    simp only [allReadableL, allReadable, Bool.true_and] at hr
    simp only [keysNodupL, keysNodup, Bool.and_eq_true, Bool.true_and] at hn
    obtain ⟨hn0, hnrest⟩ := hn
    have hn0m : n₀ ∉ rest.map Prod.fst := by simpa using hn0
    rw [targetsList_cons_skip n₀ _ rest p (by simp [isDir])]
    constructor
    · intro h2
      obtain ⟨m, q', c, hq, hc, hd, hL, hD⟩ := (targetsList_char rest p q hr hnrest).mp h2
      have hmn : m ≠ n₀ := fun he => hn0m (he ▸ getEntry_mem m c rest hc)
      exact ⟨m, q', c, hq, by rw [getEntry_cons_ne m n₀ hmn]; exact hc, hd, hL, hD⟩
    · rintro ⟨m, q', c, hq, hc, hd, hL, hD⟩
      by_cases hm : m = n₀
      · subst hm
        rw [getEntry_cons_self] at hc
        injection hc with hc2
        subst hc2
        cases q' <;> simp [isDirAt, isDir] at hd
      · rw [getEntry_cons_ne m n₀ hm] at hc
        exact (targetsList_char rest p q hr hnrest).mpr ⟨m, q', c, hq, hc, hd, hL, hD⟩
  | (n₀, Entry.special) :: rest =>
    simp only [allReadableL, allReadable, Bool.true_and] at hr
    simp only [keysNodupL, keysNodup, Bool.and_eq_true, Bool.true_and] at hn
    obtain ⟨hn0, hnrest⟩ := hn
    have hn0m : n₀ ∉ rest.map Prod.fst := by simpa using hn0
    rw [targetsList_cons_skip n₀ _ rest p (by simp [isDir])]
    constructor
    · intro h2
      obtain ⟨m, q', c, hq, hc, hd, hL, hD⟩ := (targetsList_char rest p q hr hnrest).mp h2
      have hmn : m ≠ n₀ := fun he => hn0m (he ▸ getEntry_mem m c rest hc)
      exact ⟨m, q', c, hq, by rw [getEntry_cons_ne m n₀ hmn]; exact hc, hd, hL, hD⟩
    · rintro ⟨m, q', c, hq, hc, hd, hL, hD⟩
      by_cases hm : m = n₀
      · subst hm
        rw [getEntry_cons_self] at hc
        injection hc with hc2
        subst hc2
        cases q' <;> simp [isDirAt, isDir] at hd
      · rw [getEntry_cons_ne m n₀ hm] at hc
        exact (targetsList_char rest p q hr hnrest).mpr ⟨m, q', c, hq, hc, hd, hL, hD⟩
termination_by 3 * sizeOf l + 1
decreasing_by
  all_goals simp_wf
  all_goals omega

theorem targets_char (e : Entry) (p : String) (q : List String)
    (hr : allReadable e = true) (hn : keysNodup e = true) :
    q ∈ targets e p ↔
      (q ≠ [] ∧ isDirAt e q = true ∧ q.getLast? = some p ∧ ∀ x ∈ q.dropLast, x ≠ p) := by
  cases e with
  | dir r es =>
    cases r with
    | true =>
      simp only [allReadable, Bool.true_and] at hr
      simp only [keysNodup] at hn
      rw [targets, targetsList_char es p q hr hn]
      exact isDirAt_cons_iff es q p
    | false => simp [allReadable] at hr
  | file ok k =>
    constructor
    · intro h; simp [targets] at h
    · rintro ⟨hne, hdir, hL, hD⟩
      cases q with
      | nil => exact absurd rfl hne
      | cons a t => simp [isDirAt] at hdir
  | typeErr =>
    constructor
    · intro h; simp [targets] at h
    · rintro ⟨hne, hdir, hL, hD⟩
      cases q with
      | nil => exact absurd rfl hne
      | cons a t => simp [isDirAt] at hdir
  | special =>
    constructor
    · intro h; simp [targets] at h
    · rintro ⟨hne, hdir, hL, hD⟩
      cases q with
      | nil => exact absurd rfl hne
      | cons a t => simp [isDirAt] at hdir

/-- C2 counterexample: with profile `release` and the search tree
`root/release/foo/release`, the nested directory `release/foo/release` has
final component `release` and is a directory beneath the root, but it is not a
copy target — the locator stops at the outer match, which is the only target. -/
theorem profile_locator_depth_cex :
    isDirAt
        (.dir true [("release", .dir true [("foo", .dir true [("release", .dir true [])])])])
        ["release", "foo", "release"] = true ∧
    (["release", "foo", "release"] : List String).getLast? = some "release" ∧
    ["release", "foo", "release"] ∉
      targets
        (.dir true [("release", .dir true [("foo", .dir true [("release", .dir true [])])])])
        "release" ∧
    targets
        (.dir true [("release", .dir true [("foo", .dir true [("release", .dir true [])])])])
        "release" = [["release"]] := by
  refine ⟨rfl, rfl, ?_, ?_⟩ <;> simp [targets, targetsList]

/-- C2 (amended): for a search tree whose directories are all readable and
free of duplicate names, the Profile Locator invokes the Tree Mirror on
exactly the directories strictly beneath the search root whose final path
component equals the profile name and none of whose earlier components equals
the profile name — matches at any depth qualify and every such match receives
a copy, but directories nested inside a match are excluded, because the
locator does not recurse into a matched directory. -/
theorem profile_locator_claim (e : Entry) (p : String) (q : List String)
    (hr : allReadable e = true) (hn : keysNodup e = true) :
    q ∈ targets e p ↔
      (q ≠ [] ∧ isDirAt e q = true ∧ q.getLast? = some p ∧ ∀ x ∈ q.dropLast, x ≠ p) :=
  targets_char e p q hr hn

theorem profile_locator_claim_witness :
    allReadable
        (.dir true [("release", .dir true []),
          ("a", .dir true [("b", .dir true [("c", .dir true
            [("d", .dir true [("release", .dir true [])])])])])]) = true ∧
    keysNodup
        (.dir true [("release", .dir true []),
          ("a", .dir true [("b", .dir true [("c", .dir true
            [("d", .dir true [("release", .dir true [])])])])])]) = true ∧
    (["a", "b", "c", "d", "release"] ∈
        targets
          (.dir true [("release", .dir true []),
            ("a", .dir true [("b", .dir true [("c", .dir true
              [("d", .dir true [("release", .dir true [])])])])])]) "release" ↔
      ((["a", "b", "c", "d", "release"] : List String) ≠ [] ∧
        isDirAt
          (.dir true [("release", .dir true []),
            ("a", .dir true [("b", .dir true [("c", .dir true
              [("d", .dir true [("release", .dir true [])])])])])])
          ["a", "b", "c", "d", "release"] = true ∧
        (["a", "b", "c", "d", "release"] : List String).getLast? = some "release" ∧
        ∀ x ∈ (["a", "b", "c", "d", "release"] : List String).dropLast, x ≠ "release")) :=
  ⟨rfl, rfl,
    profile_locator_claim
      (.dir true [("release", .dir true []),
        ("a", .dir true [("b", .dir true [("c", .dir true
          [("d", .dir true [("release", .dir true [])])])])])]) "release"
      ["a", "b", "c", "d", "release"] rfl rfl⟩

/-! ### PATH parsing for the output tree root -/

theorem semiIdx_spec (l : List Char) :
    (semiIdx l = none ∧ ';' ∉ l) ∨
    (∃ i, semiIdx l = some i ∧ l.take i = l.takeWhile (fun c => c ≠ ';') ∧ ';' ∈ l) := by
  induction l with
  | nil => left; exact ⟨rfl, by simp⟩
  | cons c rest ih =>
    by_cases hc : c = ';'
    · right
      exact ⟨0, by simp [semiIdx, hc], by simp [hc, List.takeWhile_cons], by simp [hc]⟩
    · rcases ih with ⟨h1, h2⟩ | ⟨i, h1, h2, h3⟩
      · left
        refine ⟨by simp [semiIdx, hc, h1], ?_⟩
        intro hmem
        rcases List.mem_cons.mp hmem with he | hm
        · exact hc he.symm
        · exact h2 hm
      · right
        refine ⟨i + 1, by simp [semiIdx, hc, h1], ?_, by simp [h3]⟩
        simp [hc, List.takeWhile_cons, List.take_succ_cons, h2]

/-- C6: the output tree root is the first `;`-delimited segment of the `PATH`
value with its last two path components removed; the computation aborts
fatally (`expect`) when `PATH` is unset or contains no `;`. -/
theorem target_root_claim :
    targetRoot none = .error "No `PATH` env variable set" ∧
    ∀ s : String,
      (';' ∈ s.toList →
        targetRoot (some s) =
          .ok ((splitComps (s.toList.takeWhile (fun c => c ≠ ';'))).dropLast.dropLast)) ∧
      (';' ∉ s.toList → targetRoot (some s) = .error "Path not ending in `;`") := by
  refine ⟨rfl, fun s => ⟨?_, ?_⟩⟩
  · intro hin
    rcases semiIdx_spec s.toList with ⟨h1, h2⟩ | ⟨i, h1, h2, h3⟩
    · exact absurd hin h2
    · simp only [targetRoot, h1]
      rw [h2]
  · intro hout
    rcases semiIdx_spec s.toList with ⟨h1, h2⟩ | ⟨i, h1, h2, h3⟩
    · simp only [targetRoot, h1]
    · exact absurd h3 hout

theorem target_root_claim_witness :
    ';' ∈ ("C:\\target\\debug;C:\\bin" : String).toList ∧
    targetRoot (some "C:\\target\\debug;C:\\bin") = .ok [['C', ':']] :=
  ⟨by decide, by rw [(target_root_claim.2 "C:\\target\\debug;C:\\bin").1 (by decide)]; rfl⟩

/-- C7 counterexample: when the artifact source root `.windows` exists but the
architecture-named subdirectory does not (here the root is empty), the claim
says neither signal is emitted; the code still emits `rerun-if-changed`. -/
theorem build_signals_cex :
    (getEntry "x64" (entriesOf (Entry.dir true []))).isSome = false ∧
    deploySignals (some (.dir true [])) "x86_64" =
      { rerun := true, linkSearch := false, archAbort := false } :=
  ⟨rfl, rfl⟩

/-- C7 (amended): the `rerun-if-changed` signal is emitted exactly when the
artifact source root exists (whatever the architecture), and the
`rustc-link-search` signal is emitted exactly when additionally the
architecture is recognized and the mapped architecture-named child exists
under the root. -/
theorem build_signals_claim (w : Option Entry) (arch : String) :
    (deploySignals w arch).rerun = w.isSome ∧
    ((deploySignals w arch).linkSearch = true ↔
      ∃ root a, w = some root ∧ archDir arch = .ok a ∧
        (getEntry a (entriesOf root)).isSome = true) := by
  cases w with
  | none => simp [deploySignals]
  | some root =>
    cases ha : archDir arch with
    | error e => simp [deploySignals, ha]
    | ok a => simp [deploySignals, ha]
